import Mathlib

/-
Shallow embedding of the mnemonic-otp library (src/index.ts) and proofs
about it.  Pure functions of the source become Lean functions; the two
injected capabilities (the uniform random integer source and the keyed
digest primitive) become explicit parameters: the random source is a
function from call index and exclusive bound to the drawn value, and the
digest primitive is a function from algorithm, key and payload to a list
of output bytes.  Fallible code returns Except with the thrown message.
-/

namespace MnemonicOtp

/-- Errors are the thrown Error messages of the source. -/
abbrev Err := String

/-- Template: a readable name plus the slot index sequence (src/index.ts, interface Template). -/
structure Template where
  name : String
  idx : List Nat
deriving Repr, DecidableEq, Inhabited

/-- Test for an uppercase letter A-Z, the regex of the pattern parser. -/
def isAZ (c : Char) : Bool := 'A' ≤ c && c ≤ 'Z'

/-- Body of the pattern parser: walks the characters keeping the map from
seen letters to their first-occurrence index (src/index.ts, pattern).
The association list plays the role of the Map, with Map.size being its length. -/
def patternGo (m : List (Char × Nat)) : List Char → Except Err (List Nat)
  | [] => .ok []
  | ch :: rest =>
    let upper := ch.toUpper
    if !(isAZ upper) then .error "Pattern may only contain letters A-Z"
    else
      match m.lookup upper with
      | some i => (patternGo m rest).map (fun r => i :: r)
      | none => (patternGo (m ++ [(upper, m.length)]) rest).map (fun r => m.length :: r)

/-- Parse a pattern string into a Template (src/index.ts, pattern). -/
def pattern (str : String) : Except Err Template :=
  if str.length = 0 then .error "Pattern must be at least one character long"
  else (patternGo [] str.toList).map
    (fun idx => { name := String.mk (str.toList.map Char.toUpper), idx := idx })

/-- Total wrapper over the parser for literals that are known to parse,
as the source calls pattern directly on literals when building the defaults. -/
def patternTotal (str : String) : Template :=
  ((pattern str).toOption).getD { name := "", idx := [] }

/-- Default alphabet (src/index.ts, DEFAULT_ALPHABET). -/
def DEFAULT_ALPHABET : List Char := "0123456789ABCDEFGHJKMNPQRSTUVWXYZ".toList

/-- Default template pool (src/index.ts, DEFAULT_TEMPLATES). -/
def DEFAULT_TEMPLATES : List Template :=
  [patternTotal "ABCABC", patternTotal "AAABBB", patternTotal "ABABAB", patternTotal "ABCDAB", patternTotal "ABCCBA"]

/-- Unique slot count of a template: one plus the maximum slot index,
the expression 1 + Math.max(...t.idx) of the source.  Templates produced
by the parser always have a non-empty idx, which is the only case in
which the fold below coincides with the variadic maximum. -/
def uniqueSlots (t : Template) : Nat := 1 + t.idx.foldl max 0

/-- Digest algorithm selector (src/index.ts, HmacOptions.hmacAlgorithm). -/
inductive HmacAlgorithm where
  | sha256
  | sha512
deriving Repr, DecidableEq

/-- Digest text encoding selector (src/index.ts, HmacOptions.hmacEncoding). -/
inductive HmacEncoding where
  | hex
  | base64
  | base64url
deriving Repr, DecidableEq

/-- Secret key: a string or a byte buffer (src/index.ts, HmacOptions.secret). -/
inductive SecretVal where
  | str (s : String)
  | buf (b : List Nat)
deriving Repr, DecidableEq, Inhabited

/-- Model of the JavaScript values a caller can put into meta.  Numbers are
modelled as integers; objects are plain objects given as ordered field lists
with distinct keys; the other constructor stands for any value whose canonical
form is its String() text (functions, symbols, class instances). -/
inductive JsValue where
  | null
  | undef
  | bool (b : Bool)
  | num (n : Int)
  | str (s : String)
  | bigint (i : Int)
  | arr (elems : List JsValue)
  | obj (fields : List (String × JsValue))
  | other (text : String)
deriving Inhabited

/-- Test for the undefined value, the typeof v === "undefined" check of the source. -/
def JsValue.isUndef : JsValue → Bool
  | .undef => true
  | _ => false

/-- Comparison used to sort object keys, the default lexicographic sort
of Object.keys(value).sort() in the source. -/
def keyLe (a b : String × JsValue) : Bool := a.1 ≤ b.1

/-- Sort the fields of a plain object by key. -/
def sortFields (fields : List (String × JsValue)) : List (String × JsValue) :=
  fields.mergeSort keyLe

mutual

/-- Deterministic canonical form of a value (src/index.ts, canonicalize):
scalars pass through, bigints become their decimal strings, arrays recurse,
plain objects get sorted keys with undefined-valued fields dropped, and
everything else becomes its String() text. -/
def canonicalize : JsValue → JsValue
  | .null => .null
  | .undef => .str "undefined"
  | .bool b => .bool b
  | .num n => .num n
  | .str s => .str s
  | .bigint i => .str (toString i)
  | .arr vs => .arr (canonList vs)
  | .obj fields => .obj (canonFields (sortFields fields))
  | .other text => .str text
termination_by v => sizeOf v
decreasing_by
  all_goals first
    | (simp_wf <;> omega)
    | (have h := (List.mergeSort_perm fields keyLe).sizeOf_eq_sizeOf
       simp_wf <;> simp only [sortFields] at h ⊢ <;> omega)

/-- Canonicalize every element of an array. -/
def canonList : List JsValue → List JsValue
  | [] => []
  | v :: vs => canonicalize v :: canonList vs
termination_by vs => sizeOf vs
decreasing_by
  all_goals simp_wf <;> omega

/-- Canonicalize the already sorted fields of a plain object, skipping
fields whose value is undefined. -/
def canonFields : List (String × JsValue) → List (String × JsValue)
  | [] => []
  | (k, v) :: rest =>
    if v.isUndef then canonFields rest else (k, canonicalize v) :: canonFields rest
termination_by fs => sizeOf fs
decreasing_by
  all_goals simp_wf <;> omega

end

/-- Four lowercase hex digits of a code unit, as in the JSON escape \u00XX. -/
def hexDigitChar (n : Nat) : Char := "0123456789abcdef".toList.getD n '0'

/-- Escape of one character inside a JSON string literal. -/
def jsonEscapeChar (c : Char) : String :=
  if c = '"' then "\\\""
  else if c = '\\' then "\\\\"
  else if c = '\n' then "\\n"
  else if c = '\r' then "\\r"
  else if c = '\t' then "\\t"
  else if c.toNat = 8 then "\\b"
  else if c.toNat = 12 then "\\f"
  else if c.toNat < 32 then
    "\\u00" ++ String.mk [hexDigitChar (c.toNat / 16), hexDigitChar (c.toNat % 16)]
  else String.singleton c

/-- Quoted, escaped JSON string literal. -/
def jsonQuote (s : String) : String :=
  "\"" ++ String.join (s.toList.map jsonEscapeChar) ++ "\""

mutual

/-- Compact deterministic JSON serialization of a canonical value, the
JSON.stringify call of canonicalJson in the source.  It is only ever applied
to the output of canonicalize, which contains no undefined, bigint or other
values; those branches are given the serialization JSON.stringify would use
for the same data in the reachable positions. -/
def stringifyJson : JsValue → String
  | .null => "null"
  | .undef => "null"
  | .bool b => if b then "true" else "false"
  | .num n => toString n
  | .str s => jsonQuote s
  | .bigint i => toString i
  | .arr vs => "[" ++ stringifyList vs ++ "]"
  | .obj fs => "\x7b" ++ stringifyFields fs ++ "\x7d"
  | .other text => jsonQuote text
termination_by v => sizeOf v
decreasing_by
  all_goals simp_wf <;> omega

/-- Serialize array elements, comma separated. -/
def stringifyList : List JsValue → String
  | [] => ""
  | [v] => stringifyJson v
  | v :: vs => stringifyJson v ++ "," ++ stringifyList vs
termination_by vs => sizeOf vs
decreasing_by
  all_goals simp_wf <;> omega

/-- Serialize object fields, comma separated, keys quoted. -/
def stringifyFields : List (String × JsValue) → String
  | [] => ""
  | [(k, v)] => jsonQuote k ++ ":" ++ stringifyJson v
  | (k, v) :: fs => jsonQuote k ++ ":" ++ stringifyJson v ++ "," ++ stringifyFields fs
termination_by fs => sizeOf fs
decreasing_by
  all_goals simp_wf <;> omega

end

/-- Canonical JSON text of a value (src/index.ts, canonicalJson). -/
def canonicalJson (v : JsValue) : String := stringifyJson (canonicalize v)

/-- Flatten metadata for the digest payload (src/index.ts, asFlatMetaObject):
a plain object contributes its canonical fields directly, anything else is
nested under a single meta field. -/
def asFlatMetaObject (meta : JsValue) : List (String × JsValue) :=
  if meta.isUndef then []
  else
    match canonicalize meta with
    | .obj fs => fs
    | c => [("meta", c)]

/-- Set one field of an object field list, replacing an existing binding in
place or appending, which is how the object spread in the payload literal
behaves. -/
def setField (fs : List (String × JsValue)) (k : String) (v : JsValue) :
    List (String × JsValue) :=
  if fs.any (fun p => p.1 == k) then fs.map (fun p => if p.1 == k then (k, v) else p)
  else fs ++ [(k, v)]

/-- Spread extra fields over a base field list, the object literal
with code first and the flattened meta fields spread after it. -/
def spreadFields (base extra : List (String × JsValue)) : List (String × JsValue) :=
  extra.foldl (fun acc kv => setField acc kv.1 kv.2) base

/-- Digest payload text: canonical JSON of the object holding code and the
flattened metadata (the payload expression of computeCodeHmacRaw). -/
def hmacPayload (code : String) (meta : JsValue) : String :=
  canonicalJson (.obj (spreadFields [("code", .str code)] (asFlatMetaObject meta)))

/-- Injected keyed digest capability: algorithm, key and payload text to raw
output bytes, standing for the createHmac/update/digest calls of the source. -/
abbrev HmacFn := HmacAlgorithm → SecretVal → String → List Nat

/-- Options record shared by generate and validateCode, merging the
GenerateOptions and HmacOptions interfaces of the source.  The random source
is passed separately.  Absent optional fields are none, and meta defaults to
the undefined value, which is what reading a missing property yields. -/
structure Options where
  alphabet : Option (List Char) := none
  templates : Option (List Template) := none
  secret : Option SecretVal := none
  meta : JsValue := .undef
  hmacAlgorithm : Option HmacAlgorithm := none
  hmacEncoding : Option HmacEncoding := none
  hmac : Option String := none

/-- Truthiness of the optional secret: absent and the empty string are falsy,
any other string and every Buffer (empty included) are truthy. -/
def secretTruthy : Option SecretVal → Bool
  | none => false
  | some (.str s) => !(s == "")
  | some (.buf _) => true

/-- Truthiness of the optional stored digest string: absent or empty is falsy. -/
def hmacTruthy : Option String → Bool
  | none => false
  | some s => !(s == "")

/-- Raw digest over the payload binding code and metadata
(src/index.ts, computeCodeHmacRaw). -/
def computeCodeHmacRaw (hmacFn : HmacFn) (code : String) (opts : Options) : List Nat :=
  hmacFn (opts.hmacAlgorithm.getD .sha256) (opts.secret.getD (.str ""))
    (hmacPayload code opts.meta)

/-- Value of a hex digit character, the Buffer hex parser on one character,
written over raw code points: digits, then lowercase, then uppercase. -/
def hexVal (c : Char) : Option Nat :=
  let n := c.toNat
  if 48 ≤ n && n ≤ 57 then some (n - 48)
  else if 97 ≤ n && n ≤ 102 then some (n - 87)
  else if 65 ≤ n && n ≤ 70 then some (n - 55)
  else none

/-- Two lowercase hex digits of a byte, as Buffer.toString hex emits. -/
def byteToHex (b : Nat) : List Char := [hexDigitChar (b / 16), hexDigitChar (b % 16)]

/-- Hex encoding of a byte list. -/
def encodeHex (bs : List Nat) : List Char := bs.flatMap byteToHex

/-- Base64 alphabet in index order. -/
def B64_CHARS : List Char :=
  "ABCDEFGHIJKLMNOPQRSTUVWXYZabcdefghijklmnopqrstuvwxyz0123456789+/".toList

/-- Character of a six bit group. -/
def b64Char (n : Nat) : Char := B64_CHARS.getD n 'A'

/-- Standard base64 encoding with padding, as Buffer.toString base64 emits. -/
def encodeB64 : List Nat → List Char
  | [] => []
  | [a] => [b64Char (a / 4), b64Char (a % 4 * 16), '=', '=']
  | [a, b] => [b64Char (a / 4), b64Char (a % 4 * 16 + b / 16), b64Char (b % 16 * 4), '=']
  | a :: b :: c :: rest =>
    b64Char (a / 4) :: b64Char (a % 4 * 16 + b / 16) :: b64Char (b % 16 * 4 + c / 64)
      :: b64Char (c % 64) :: encodeB64 rest

/-- Drop every trailing padding character, the replace of the =+$ pattern. -/
def dropTrailingEq (cs : List Char) : List Char :=
  (cs.reverse.dropWhile (fun c => c == '=')).reverse

/-- Per character form of the two replace calls turning base64 into
base64url. -/
def urlMapChar (c : Char) : Char :=
  if c = '+' then '-' else if c = '/' then '_' else c

/-- Per character form of the two replace calls turning base64url back into
base64. -/
def urlBackChar (c : Char) : Char :=
  if c = '-' then '+' else if c = '_' then '/' else c

/-- Base64url text from base64 text: swap the two special characters and strip
the trailing padding, in the replace order of the source. -/
def b64ToUrl (cs : List Char) : List Char :=
  dropTrailingEq (cs.map urlMapChar)

/-- Encode raw digest bytes into the selected text encoding
(src/index.ts, encodeBuffer). -/
def encodeBuffer (bs : List Nat) (enc : HmacEncoding) : String :=
  match enc with
  | .hex => String.mk (encodeHex bs)
  | .base64 => String.mk (encodeB64 bs)
  | .base64url => String.mk (b64ToUrl (encodeB64 bs))

/-- Index of a character in the base64 alphabet. -/
def b64Val (c : Char) : Option Nat := B64_CHARS.findIdx? (fun x => x == c)

/-- Reassemble bytes from six bit groups, with the final partial group
contributing one byte for two groups and two bytes for three. -/
def decodeB64Core : List Nat → List Nat
  | a :: b :: c :: d :: rest =>
    (a * 4 + b / 16) :: (b % 16 * 16 + c / 4) :: (c % 4 * 64 + d) :: decodeB64Core rest
  | [a, b] => [a * 4 + b / 16]
  | [a, b, c] => [a * 4 + b / 16, b % 16 * 16 + c / 4]
  | _ => []

/-- Base64 decoding in the forgiving style of Buffer.from: read up to the
first padding character, keep only alphabet characters, reassemble bytes. -/
def decodeB64 (cs : List Char) : List Nat :=
  decodeB64Core ((cs.takeWhile (fun c => !(c == '='))).filterMap b64Val)

/-- Hex decoding pairwise, stopping at the first invalid pair as Buffer.from
does. -/
def decodeHexPairs : List Char → List Nat
  | a :: b :: rest =>
    match hexVal a, hexVal b with
    | some x, some y => (x * 16 + y) :: decodeHexPairs rest
    | _, _ => []
  | _ => []

/-- Decode a stored digest string into bytes (src/index.ts,
decodeHmacToBuffer): odd length hex is rejected, base64url is mapped back to
base64 with the padding the source formula restores. -/
def decodeHmacToBuffer (hmac : String) (enc : HmacEncoding) : Option (List Nat) :=
  match enc with
  | .hex =>
    if hmac.length % 2 ≠ 0 then none else some (decodeHexPairs hmac.toList)
  | .base64 => some (decodeB64 hmac.toList)
  | .base64url =>
    some (decodeB64 ((hmac.toList.map urlBackChar)
      ++ List.replicate ((4 - (if hmac.length % 4 = 0 then 4 else hmac.length % 4)) % 4) '='))

/-- Public digest of a code bound to metadata (src/index.ts, computeCodeHmac):
raw digest over the uppercased code, then text encoded. -/
def computeCodeHmac (hmacFn : HmacFn) (code : List Char) (opts : Options) : String :=
  encodeBuffer (computeCodeHmacRaw hmacFn (String.mk (code.map Char.toUpper)) opts)
    (opts.hmacEncoding.getD .hex)

/-- Loop of matchesTemplate: the association list is the Map from slot to the
first character seen in that slot, and the pairs are the remaining
position pairs of slot index and code character. -/
def mtLoop (m : List (Nat × Char)) : List (Nat × Char) → Bool
  | [] => true
  | (slot, ch) :: rest =>
    match m.lookup slot with
    | none => mtLoop (m ++ [(slot, ch)]) rest
    | some c0 => if c0 = ch then mtLoop m rest else false

/-- Check one template against an uppercased candidate
(src/index.ts, matchesTemplate). -/
def matchesTemplate (code : List Char) (t : Template) : Bool :=
  code.length == t.idx.length && mtLoop [] (t.idx.zip code)

/-- Integrity comparison step of validateCode: recompute the raw digest over
the uppercased candidate, decode the stored digest text, and compare with
equal length and content; a decode failure or length mismatch is false.  The
equality comparison stands for the timingSafeEqual call, whose try and catch
cannot fire once the lengths agree. -/
def hmacCheck (hmacFn : HmacFn) (up : List Char) (opts : Options) : Bool :=
  let expectedRaw := computeCodeHmacRaw hmacFn (String.mk up) opts
  let enc := opts.hmacEncoding.getD .hex
  match decodeHmacToBuffer (opts.hmac.getD "") enc with
  | none => false
  | some providedRaw =>
    if providedRaw.length ≠ expectedRaw.length then false
    else providedRaw == expectedRaw

/-- Validate a candidate code against options (src/index.ts, validateCode).
The body never throws, so every branch is ok. -/
def validateCode (hmacFn : HmacFn) (code : List Char) (opts : Options) : Except Err Bool :=
  let alphabet := opts.alphabet.getD DEFAULT_ALPHABET
  let templates := opts.templates.getD DEFAULT_TEMPLATES
  let up := code.map Char.toUpper
  if !(up.all (fun ch => alphabet.contains ch)) then .ok false
  else if !(templates.any (fun t => matchesTemplate up t)) then .ok false
  else if hmacTruthy opts.hmac && secretTruthy opts.secret then .ok (hmacCheck hmacFn up opts)
  else .ok true

/-- Value of the numerically stable entropy computation of the source under
exact real arithmetic: with log2a the base two logarithm of the alphabet
length and uMax the largest unique slot count, it is
uMax * log2a + log2 of the sum of 2 to the (u - uMax) * log2a. -/
noncomputable def poolBitsReal (templates : List Template) (alphaLen : Nat) : ℝ :=
  let log2a : ℝ := Real.logb 2 alphaLen
  let uniques := templates.map uniqueSlots
  let uMax := uniques.foldl max 0
  let sumScaled : ℝ :=
    (uniques.map (fun u : Nat => (2 : ℝ) ^ (((u : ℝ) - (uMax : ℝ)) * log2a))).sum
  (uMax : ℝ) * log2a + Real.logb 2 sumScaled

/-- Pool entropy in bits (src/index.ts, calcPoolEntropyBits), with the
floating point arithmetic of the source read as exact real arithmetic and
Math.floor as the integer floor. -/
noncomputable def calcPoolEntropyBits (templates : List Template) (alphaLen : Nat) :
    Except Err Int :=
  if alphaLen < 2 then .error "Alphabet must contain at least 2 symbols"
  else if templates.length = 0 then .error "At least one template required"
  else .ok ⌊poolBitsReal templates alphaLen⌋

/-- Duplicate-freedom check of the alphabet, the seen set loop of
ensureUniqueAlphabet read as a boolean. -/
def uniqueAlphabet : List Char → Bool
  | [] => true
  | c :: rest => !(rest.contains c) && uniqueAlphabet rest

/-- Template selection step of generate: a single-member pool is used
directly without consuming randomness, otherwise one uniform index is drawn. -/
def selectTemplate (templates : List Template) (rng : Nat → Nat → Nat) (c : Nat) : Template :=
  if templates.length = 1 then templates.getD 0 default
  else templates.getD (rng c templates.length) default

/-- Number of draws the template selection consumes. -/
def templateDrawCount (templates : List Template) : Nat :=
  if templates.length = 1 then 0 else 1

/-- Symbol drawing loop of generate: one uniform symbol per unique slot,
with c1 the call index of the first symbol draw. -/
def genSymbols (alphabet : List Char) (rng : Nat → Nat → Nat) (c1 unique : Nat) : List Char :=
  (List.range unique).map (fun i => alphabet.getD (rng (c1 + i) alphabet.length) ' ')

/-- Output record of generate (src/index.ts, GeneratedCode). -/
structure GeneratedCode where
  code : List Char
  template : String
  entropyBits : Int
  hmac : Option String

/-- Generate a code (src/index.ts, generate).  The injected random source is
modelled as a function from call index and exclusive bound to the drawn
value, with c the index of its next call; the returned number is the index
after the consumed draws, so that draw consumption is observable.  Out of
range draws index the pool and alphabet through getD with a default, the
counterpart of the unchecked indexing in the source. -/
noncomputable def generate (hmacFn : HmacFn) (opts : Options) (rng : Nat → Nat → Nat)
    (c : Nat) : Except Err (GeneratedCode × Nat) := do
  let alphabet := opts.alphabet.getD DEFAULT_ALPHABET
  let templates := opts.templates.getD DEFAULT_TEMPLATES
  if alphabet.length < 2 then throw "Alphabet must contain at least 2 symbols"
  else if !(uniqueAlphabet alphabet) then throw "Alphabet must not contain duplicate symbols"
  else if templates.length = 0 then throw "At least one template required"
  else
    let t := selectTemplate templates rng c
    let c1 := c + templateDrawCount templates
    let unique := uniqueSlots t
    let symbols := genSymbols alphabet rng c1 unique
    let code := t.idx.map (fun i => symbols.getD i ' ')
    let entropyBits ← calcPoolEntropyBits templates alphabet.length
    let hm := if secretTruthy opts.secret then some (computeCodeHmac hmacFn code opts) else none
    pure ({ code := code, template := t.name, entropyBits := entropyBits, hmac := hm }, c1 + unique)

/-! ### Characterization of template matching -/

/-- Consistency of a list of slot and character pairs: equal slots carry
equal characters. -/
def PairsConsistent (l : List (Nat × Char)) : Prop :=
  ∀ p ∈ l, ∀ q ∈ l, p.1 = q.1 → p.2 = q.2

lemma lookup_some_of_mem {m : List (Nat × Char)} {s : Nat} {c : Char}
    (h : (s, c) ∈ m) : ∃ d, m.lookup s = some d := by
  induction m with
  | nil => cases h
  | cons p rest ih =>
    rcases List.mem_cons.mp h with h | h
    · subst h
      exact ⟨c, by simp [List.lookup]⟩
    · rcases ih h with ⟨d, hd⟩
      by_cases hk : s = p.1
      · exact ⟨p.2, by simp [List.lookup, hk]⟩
      · refine ⟨d, ?_⟩
        have : (s == p.1) = false := beq_false_of_ne hk
        simpa [List.lookup, this] using hd

lemma mem_of_lookup_some {m : List (Nat × Char)} {s : Nat} {c : Char}
    (h : m.lookup s = some c) : (s, c) ∈ m := by
  induction m with
  | nil => simp [List.lookup] at h
  | cons p rest ih =>
    obtain ⟨k, v⟩ := p
    by_cases hk : s = k
    · subst hk
      simp only [List.lookup, beq_self_eq_true] at h
      have hv : v = c := Option.some.inj h
      subst hv
      exact List.mem_cons_self _ _
    · have hb : (s == k) = false := beq_false_of_ne hk
      simp only [List.lookup, hb] at h
      exact List.mem_cons_of_mem _ (ih h)

lemma mtLoop_iff (pairs : List (Nat × Char)) : ∀ m : List (Nat × Char),
    PairsConsistent m → (mtLoop m pairs = true ↔ PairsConsistent (m ++ pairs)) := by
  induction pairs with
  | nil =>
    intro m hm
    simpa [mtLoop] using hm
  | cons hd rest ih =>
    rintro m hm
    obtain ⟨s, ch⟩ := hd
    cases hlk : m.lookup s with
    | none =>
      have hnotin : ∀ c, (s, c) ∉ m := by
        intro c hc
        rcases lookup_some_of_mem hc with ⟨d, hd⟩
        rw [hlk] at hd
        cases hd
      have hm' : PairsConsistent (m ++ [(s, ch)]) := by
        intro p hp q hq hpq
        rcases List.mem_append.mp hp with hp | hp <;>
          rcases List.mem_append.mp hq with hq | hq
        · exact hm p hp q hq hpq
        · simp only [List.mem_singleton] at hq
          subst hq
          exfalso
          have hpm : (p.1, p.2) ∈ m := by simpa using hp
          rw [hpq] at hpm
          exact hnotin p.2 hpm
        · simp only [List.mem_singleton] at hp
          subst hp
          exfalso
          have hqm : (q.1, q.2) ∈ m := by simpa using hq
          rw [← hpq] at hqm
          exact hnotin q.2 hqm
        · simp only [List.mem_singleton] at hp hq
          rw [hp, hq]
      have heq : (m ++ [(s, ch)]) ++ rest = m ++ (s, ch) :: rest := by
        simp
      calc mtLoop m ((s, ch) :: rest) = true
          ↔ mtLoop (m ++ [(s, ch)]) rest = true := by rw [mtLoop, hlk]
        _ ↔ PairsConsistent ((m ++ [(s, ch)]) ++ rest) := ih _ hm'
        _ ↔ PairsConsistent (m ++ (s, ch) :: rest) := by rw [heq]
    | some c0 =>
      have hmem : (s, c0) ∈ m := mem_of_lookup_some hlk
      by_cases hc : c0 = ch
      · subst hc
        have step : mtLoop m ((s, c0) :: rest) = mtLoop m rest := by
          simp [mtLoop, hlk]
        rw [step]
        rw [ih m hm]
        constructor
        · intro h p hp q hq hpq
          have move : ∀ r : Nat × Char, r ∈ m ++ (s, c0) :: rest → r ∈ m ++ rest := by
            intro r hr
            rcases List.mem_append.mp hr with hr | hr
            · exact List.mem_append.mpr (Or.inl hr)
            · rcases List.mem_cons.mp hr with hr | hr
              · subst hr
                exact List.mem_append.mpr (Or.inl hmem)
              · exact List.mem_append.mpr (Or.inr hr)
          exact h p (move p hp) q (move q hq) hpq
        · intro h p hp q hq hpq
          have back : ∀ r : Nat × Char, r ∈ m ++ rest → r ∈ m ++ (s, c0) :: rest := by
            intro r hr
            rcases List.mem_append.mp hr with hr | hr
            · exact List.mem_append.mpr (Or.inl hr)
            · exact List.mem_append.mpr (Or.inr (List.mem_cons_of_mem _ hr))
          exact h p (back p hp) q (back q hq) hpq
      · have step : mtLoop m ((s, ch) :: rest) = false := by
          simp [mtLoop, hlk, hc]
        rw [step]
        simp only [Bool.false_eq_true, false_iff]
        intro h
        have h1 : (s, c0) ∈ m ++ (s, ch) :: rest := List.mem_append.mpr (Or.inl hmem)
        have h2 : (s, ch) ∈ m ++ (s, ch) :: rest :=
          List.mem_append.mpr (Or.inr (List.mem_cons_self _ _))
        exact hc (h (s, c0) h1 (s, ch) h2 rfl)

/-- Characterization of matchesTemplate: a candidate matches exactly when the
lengths agree and equal slot indices force equal characters; distinctness of
characters across different slots is never required. -/
lemma matchesTemplate_iff (code : List Char) (t : Template) :
    matchesTemplate code t = true ↔
      (code.length = t.idx.length ∧
        ∀ i j, i < t.idx.length → j < t.idx.length →
          t.idx.getD i 0 = t.idx.getD j 0 → code.getD i ' ' = code.getD j ' ') := by
  rw [matchesTemplate, Bool.and_eq_true, beq_iff_eq]
  constructor
  · rintro ⟨hlen, hloop⟩
    refine ⟨hlen, ?_⟩
    have hpc : PairsConsistent (t.idx.zip code) := by
      have := (mtLoop_iff (t.idx.zip code) [] (by intro p hp; cases hp)).mp hloop
      simpa using this
    intro i j hi hj hij
    have hci : i < code.length := by omega
    have hcj : j < code.length := by omega
    have hzlen : (t.idx.zip code).length = t.idx.length := by
      simp [List.length_zip, hlen]
    have hpi : (t.idx[i], code[i]) ∈ t.idx.zip code := by
      have hzi : i < (t.idx.zip code).length := by omega
      have := List.getElem_mem hzi
      rwa [List.getElem_zip] at this
    have hpj : (t.idx[j], code[j]) ∈ t.idx.zip code := by
      have hzj : j < (t.idx.zip code).length := by omega
      have := List.getElem_mem hzj
      rwa [List.getElem_zip] at this
    have hkey : t.idx[i] = t.idx[j] := by
      rwa [List.getD_eq_getElem _ _ hi, List.getD_eq_getElem _ _ hj] at hij
    have := hpc _ hpi _ hpj hkey
    rw [List.getD_eq_getElem _ _ hci, List.getD_eq_getElem _ _ hcj]
    exact this
  · rintro ⟨hlen, hcons⟩
    refine ⟨hlen, ?_⟩
    rw [mtLoop_iff (t.idx.zip code) [] (by intro p hp; cases hp)]
    intro p hp q hq hpq
    simp only [List.nil_append] at hp hq
    rcases List.mem_iff_getElem.mp hp with ⟨i, hzi, hpi⟩
    rcases List.mem_iff_getElem.mp hq with ⟨j, hzj, hqj⟩
    rw [List.getElem_zip] at hpi hqj
    have hzlen : (t.idx.zip code).length = t.idx.length := by
      simp [List.length_zip, hlen]
    have hi : i < t.idx.length := by omega
    have hj : j < t.idx.length := by omega
    have hci : i < code.length := by omega
    have hcj : j < code.length := by omega
    have hkey : t.idx.getD i 0 = t.idx.getD j 0 := by
      rw [List.getD_eq_getElem _ _ hi, List.getD_eq_getElem _ _ hj]
      have : p.1 = t.idx[i] := by rw [← hpi]
      have hq1 : q.1 = t.idx[j] := by rw [← hqj]
      rw [← this, ← hq1, hpq]
    have := hcons i j hi hj hkey
    rw [List.getD_eq_getElem _ _ hci, List.getD_eq_getElem _ _ hcj] at this
    have hp2 : p.2 = code[i] := by rw [← hpi]
    have hq2 : q.2 = code[j] := by rw [← hqj]
    rw [hp2, hq2, this]

/-! ### Success path of the generator -/

lemma init_le_foldl_max (l : List Nat) (a : Nat) : a ≤ l.foldl max a := by
  induction l generalizing a with
  | nil => simp
  | cons y ys ih =>
    calc a ≤ max a y := le_max_left _ _
      _ ≤ ys.foldl max (max a y) := ih _
      _ = (y :: ys).foldl max a := by simp [List.foldl]

lemma mem_le_foldl_max {x : Nat} {l : List Nat} (hx : x ∈ l) (a : Nat) :
    x ≤ l.foldl max a := by
  induction l generalizing a with
  | nil => cases hx
  | cons y ys ih =>
    rcases List.mem_cons.mp hx with hx | hx
    · subst hx
      calc x ≤ max a x := le_max_right _ _
        _ ≤ ys.foldl max (max a x) := init_le_foldl_max _ _
        _ = (x :: ys).foldl max a := by simp [List.foldl]
    · simpa [List.foldl] using ih hx (max a y)

/-- Every slot index of a template is below its unique slot count. -/
lemma idx_lt_uniqueSlots {t : Template} {i : Nat} (hi : i ∈ t.idx) :
    i < uniqueSlots t := by
  have := mem_le_foldl_max hi 0
  rw [uniqueSlots]
  omega

lemma calcPoolEntropyBits_ok {templates : List Template} {alphaLen : Nat}
    (h2 : 2 ≤ alphaLen) (hne : templates.length ≠ 0) :
    calcPoolEntropyBits templates alphaLen = .ok ⌊poolBitsReal templates alphaLen⌋ := by
  rw [calcPoolEntropyBits, if_neg (by omega), if_neg hne]

/-- The generator on valid options: no error is thrown, the selected template
is expanded with one fresh symbol per unique slot, and the random call index
advances by the template draw plus one draw per unique slot. -/
lemma generate_eq_ok (hmacFn : HmacFn) (opts : Options) (rng : Nat → Nat → Nat) (c : Nat)
    (hlen : 2 ≤ (opts.alphabet.getD DEFAULT_ALPHABET).length)
    (hunique : uniqueAlphabet (opts.alphabet.getD DEFAULT_ALPHABET) = true)
    (htpl : (opts.templates.getD DEFAULT_TEMPLATES).length ≠ 0) :
    generate hmacFn opts rng c = .ok
      (let alphabet := opts.alphabet.getD DEFAULT_ALPHABET
       let templates := opts.templates.getD DEFAULT_TEMPLATES
       let t := selectTemplate templates rng c
       let c1 := c + templateDrawCount templates
       let symbols := genSymbols alphabet rng c1 (uniqueSlots t)
       let code := t.idx.map (fun i => symbols.getD i ' ')
       ({ code := code
        , template := t.name
        , entropyBits := ⌊poolBitsReal templates alphabet.length⌋
        , hmac := if secretTruthy opts.secret then some (computeCodeHmac hmacFn code opts) else none }
        , c1 + uniqueSlots t)) := by
  rw [generate]
  simp only [if_neg (by omega : ¬ (opts.alphabet.getD DEFAULT_ALPHABET).length < 2),
    hunique, Bool.not_true, Bool.false_eq_true, if_false, if_neg htpl,
    calcPoolEntropyBits_ok hlen htpl]
  rfl

lemma genSymbols_getD {alphabet : List Char} {rng : Nat → Nat → Nat} {c1 unique s : Nat}
    (hs : s < unique) :
    (genSymbols alphabet rng c1 unique).getD s ' '
      = alphabet.getD (rng (c1 + s) alphabet.length) ' ' := by
  rw [genSymbols, List.getD_eq_getElem _ _ (by simpa using hs), List.getElem_map,
    List.getElem_range]

lemma genSymbols_getD_mem {alphabet : List Char} {rng : Nat → Nat → Nat} {c1 unique s : Nat}
    (hs : s < unique) (hA : 0 < alphabet.length)
    (hrng : ∀ k n, 0 < n → rng k n < n) :
    (genSymbols alphabet rng c1 unique).getD s ' ' ∈ alphabet := by
  rw [genSymbols_getD hs, List.getD_eq_getElem _ _ (hrng (c1 + s) alphabet.length hA)]
  exact List.getElem_mem _

/-- A code expanded from a template always matches that template. -/
lemma matchesTemplate_genCode (t : Template) (symbols : List Char) :
    matchesTemplate (t.idx.map (fun i => symbols.getD i ' ')) t = true := by
  rw [matchesTemplate_iff]
  refine ⟨by simp, ?_⟩
  intro i j hi hj hij
  rw [List.getD_eq_getElem _ _ (by simpa using hi),
    List.getD_eq_getElem _ _ (by simpa using hj), List.getElem_map, List.getElem_map]
  rw [List.getD_eq_getElem _ _ hi, List.getD_eq_getElem _ _ hj] at hij
  rw [hij]

lemma selectTemplate_mem {P : List Template} {rng : Nat → Nat → Nat} {c : Nat}
    (hP : P ≠ []) (hrng : ∀ k n, 0 < n → rng k n < n) :
    selectTemplate P rng c ∈ P := by
  have hPl : 0 < P.length := List.length_pos.mpr hP
  rw [selectTemplate]
  split
  · rw [List.getD_eq_getElem _ _ hPl]
    exact List.getElem_mem _
  · rw [List.getD_eq_getElem _ _ (hrng c P.length hPl)]
    exact List.getElem_mem _

lemma validateCode_skip {hmacFn : HmacFn} {code : List Char} {opts : Options}
    (hskip : (hmacTruthy opts.hmac && secretTruthy opts.secret) = false) :
    validateCode hmacFn code opts = .ok
      ((code.map Char.toUpper).all
          (fun ch => (opts.alphabet.getD DEFAULT_ALPHABET).contains ch) &&
        (opts.templates.getD DEFAULT_TEMPLATES).any
          (fun t => matchesTemplate (code.map Char.toUpper) t)) := by
  rw [validateCode]
  cases h1 : (code.map Char.toUpper).all
      (fun ch => (opts.alphabet.getD DEFAULT_ALPHABET).contains ch) <;>
    cases h2 : (opts.templates.getD DEFAULT_TEMPLATES).any
      (fun t => matchesTemplate (code.map Char.toUpper) t) <;>
    simp [hskip, h1, h2]

/-- Claim C1 as stated is refuted by a lowercase alphabet: with the valid
two-symbol distinct alphabet a b and the one-slot template named A, generate
produces the code a, but validateCode upper-cases the candidate to A, which
is outside the alphabet, so self-acceptance fails. -/
theorem claim_C1_counterexample :
    (generate (fun _ _ _ => [])
        { alphabet := some ['a', 'b'], templates := some [⟨"A", [0]⟩] }
        (fun _ _ => 0) 0).map (fun p => p.1.code) = .ok ['a'] ∧
    validateCode (fun _ _ _ => []) ['a']
        { alphabet := some ['a', 'b'], templates := some [⟨"A", [0]⟩] } = .ok false := by
  constructor
  · rw [generate_eq_ok _ _ _ _ (by decide) (by decide) (by decide)]
    rfl
  · rfl

/-- Claim C1, amended: self-acceptance additionally needs every alphabet
symbol to be fixed by upper-casing, because validateCode upper-cases the
candidate while generate draws symbols verbatim.  With that restriction, for
every valid alphabet and pool and every in-range random source, generate
succeeds, the code length equals the selected template length, and
validateCode accepts the exact returned code. -/
theorem claim_C1 (hmacFn : HmacFn) (A : List Char) (P : List Template)
    (rng : Nat → Nat → Nat) (c : Nat)
    (hlen : 2 ≤ A.length) (hnd : uniqueAlphabet A = true)
    (hupper : ∀ a ∈ A, a.toUpper = a) (hP : P ≠ [])
    (hrng : ∀ k n, 0 < n → rng k n < n) :
    ∃ t ∈ P, ∃ r : GeneratedCode, ∃ n : Nat,
      generate hmacFn { alphabet := some A, templates := some P } rng c = .ok (r, n) ∧
      r.code.length = t.idx.length ∧
      validateCode hmacFn r.code { alphabet := some A, templates := some P } = .ok true := by
  have hPlen : P.length ≠ 0 := by simpa using hP
  have hgen := generate_eq_ok hmacFn { alphabet := some A, templates := some P } rng c
    (by simpa using hlen) (by simpa using hnd) (by simpa using hPlen)
  dsimp only [Option.getD_some] at hgen
  set t := selectTemplate P rng c with ht
  set symbols := genSymbols A rng (c + templateDrawCount P) (uniqueSlots t) with hsym
  set code := t.idx.map (fun i => symbols.getD i ' ') with hcode
  have htmem : t ∈ P := selectTemplate_mem hP hrng
  refine ⟨t, htmem, _, _, hgen, by simp [hcode], ?_⟩
  have hchars : ∀ ch ∈ code, ch ∈ A := by
    intro ch hch
    rw [hcode] at hch
    rcases List.mem_map.mp hch with ⟨i, hi, hchEq⟩
    rw [← hchEq]
    exact genSymbols_getD_mem (idx_lt_uniqueSlots hi) (by omega) hrng
  have hup : code.map Char.toUpper = code := by
    have : ∀ ch ∈ code, Char.toUpper ch = ch := fun ch hch => hupper ch (hchars ch hch)
    calc code.map Char.toUpper = code.map id := List.map_congr_left this
      _ = code := List.map_id code
  rw [validateCode_skip (by rfl)]
  rw [hup]
  have hall : code.all (fun ch => A.contains ch) = true := by
    rw [List.all_eq_true]
    intro ch hch
    exact List.elem_iff.mpr (hchars ch hch)
  have hany : P.any (fun u => matchesTemplate code u) = true := by
    rw [List.any_eq_true]
    exact ⟨t, htmem, by rw [hcode]; exact matchesTemplate_genCode t symbols⟩
  dsimp only [Option.getD_some]
  rw [hall, hany]
  rfl

/-- Witness for the amended claim C1 at the default alphabet with the mirror
repeat template and the constant zero random source. -/
theorem claim_C1_witness :
    ∃ t ∈ [patternTotal "ABCABC"], ∃ r : GeneratedCode, ∃ n : Nat,
      generate (fun _ _ _ => [])
          { alphabet := some DEFAULT_ALPHABET, templates := some [patternTotal "ABCABC"] }
          (fun _ _ => 0) 0 = .ok (r, n) ∧
      r.code.length = t.idx.length ∧
      validateCode (fun _ _ _ => []) r.code
          { alphabet := some DEFAULT_ALPHABET, templates := some [patternTotal "ABCABC"] }
        = .ok true :=
  claim_C1 _ _ _ _ _ (by decide) (by decide) (by decide) (by decide)
    (fun k n hn => by simpa using hn)

/-- Claim C7: a candidate matches a template exactly when the lengths agree
and positions sharing a slot index carry the same character; equality of
characters across distinct slots is allowed, as the two-slot template AB
accepting the candidate AA shows. -/
theorem claim_C7 :
    (∀ (code : List Char) (t : Template),
      matchesTemplate code t = true ↔
        (code.length = t.idx.length ∧
          ∀ i j, i < t.idx.length → j < t.idx.length →
            t.idx.getD i 0 = t.idx.getD j 0 → code.getD i ' ' = code.getD j ' ')) ∧
    matchesTemplate ['A', 'A'] ⟨"AB", [0, 1]⟩ = true :=
  ⟨matchesTemplate_iff, by decide⟩

/-- Claim C6: on valid options the generator output is a function of the
inputs and the indexed draws of the random source.  The final call index
shows the exact consumption: one draw for template selection only when the
pool has more than one member, then one draw per unique slot of the selected
template; the code is the slot sequence mapped through the alphabet at the
drawn indices. -/
theorem claim_C6 (hmacFn : HmacFn) (A : List Char) (P : List Template)
    (rng : Nat → Nat → Nat) (c : Nat)
    (hlen : 2 ≤ A.length) (hnd : uniqueAlphabet A = true) (hP : P ≠ [])
    (hwf : ∀ t ∈ P, t.idx ≠ []) :
    ∃ r : GeneratedCode,
      generate hmacFn { alphabet := some A, templates := some P } rng c
        = .ok (r, c + templateDrawCount P + uniqueSlots (selectTemplate P rng c)) ∧
      r.code = (selectTemplate P rng c).idx.map
        (fun i => A.getD (rng (c + templateDrawCount P + i) A.length) ' ') ∧
      r.template = (selectTemplate P rng c).name := by
  have hPlen : P.length ≠ 0 := by simpa using hP
  have hgen := generate_eq_ok hmacFn { alphabet := some A, templates := some P } rng c
    (by simpa using hlen) (by simpa using hnd) (by simpa using hPlen)
  dsimp only [Option.getD_some] at hgen
  refine ⟨_, hgen, ?_, rfl⟩
  apply List.map_congr_left
  intro i hi
  exact genSymbols_getD (idx_lt_uniqueSlots hi)

/-- Witness for claim C6: the cycling random source with the single mirror
repeat template over the default alphabet consumes three draws and yields
the first three alphabet symbols repeated. -/
theorem claim_C6_witness :
    ∃ r : GeneratedCode,
      generate (fun _ _ _ => [])
          { alphabet := some DEFAULT_ALPHABET, templates := some [patternTotal "ABCABC"] }
          (fun k n => k % n) 0 = .ok (r, 3) ∧
      r.code = ['0', '1', '2', '0', '1', '2'] ∧ r.template = "ABCABC" := by
  obtain ⟨r, h1, h2, h3⟩ := claim_C6 (fun _ _ _ => []) DEFAULT_ALPHABET
    [patternTotal "ABCABC"] (fun k n => k % n) 0 (by decide) (by decide) (by decide) (by decide)
  refine ⟨r, ?_, ?_, ?_⟩
  · have hcnt : 0 + templateDrawCount [patternTotal "ABCABC"]
        + uniqueSlots (selectTemplate [patternTotal "ABCABC"] (fun k n => k % n) 0) = 3 := by
      decide
    rw [hcnt] at h1
    exact h1
  · rw [h2]
    decide
  · rw [h3]
    decide

/-! ### Exact value of the entropy computation -/

lemma floor_logb_two_nat (n : ℕ) : ⌊Real.logb 2 (n : ℝ)⌋ = (Nat.log 2 n : ℤ) := by
  have h : ((2 : ℕ) : ℝ) = (2 : ℝ) := by norm_num
  rw [← h, Real.floor_logb_natCast (by positivity), Int.log_natCast]

/-- The log-space computation of the source equals the plain logarithm of the
total outcome count: the scaled terms are the outcome counts divided by the
largest one, and the two logarithms recombine. -/
lemma poolBitsReal_eq (templates : List Template) (alphaLen : Nat)
    (h2 : 2 ≤ alphaLen) (hne : templates ≠ []) :
    poolBitsReal templates alphaLen
      = Real.logb 2 ((templates.map (fun t => (alphaLen : ℝ) ^ uniqueSlots t)).sum) := by
  have ha0 : (0 : ℝ) < (alphaLen : ℝ) := by
    have h : (0 : ℕ) < alphaLen := by omega
    exact_mod_cast h
  simp only [poolBitsReal]
  set us := templates.map uniqueSlots with hus
  set uM := us.foldl max 0 with huM
  have husne : us ≠ [] := by
    rw [hus]
    simpa using hne
  have hS : 0 < (us.map (fun u : Nat => (alphaLen : ℝ) ^ u)).sum := by
    apply List.sum_pos
    · intro x hx
      rcases List.mem_map.mp hx with ⟨u, _, hu⟩
      rw [← hu]
      exact pow_pos ha0 u
    · simpa using husne
  have hscaled : (us.map (fun u : Nat =>
      (2 : ℝ) ^ (((u : ℝ) - (uM : ℝ)) * Real.logb 2 (alphaLen : ℝ)))).sum
        = (us.map (fun u : Nat => (alphaLen : ℝ) ^ u)).sum / (alphaLen : ℝ) ^ uM := by
    have hmapeq : (us.map (fun u : Nat =>
        (2 : ℝ) ^ (((u : ℝ) - (uM : ℝ)) * Real.logb 2 (alphaLen : ℝ))))
          = us.map (fun u : Nat => (alphaLen : ℝ) ^ u * ((alphaLen : ℝ) ^ uM)⁻¹) := by
      apply List.map_congr_left
      intro u _
      rw [mul_comm ((u : ℝ) - (uM : ℝ)) (Real.logb 2 (alphaLen : ℝ)),
        Real.rpow_mul (by norm_num : (0 : ℝ) ≤ 2),
        Real.rpow_logb (by norm_num) (by norm_num) ha0,
        Real.rpow_sub ha0, Real.rpow_natCast, Real.rpow_natCast, div_eq_mul_inv]
    rw [hmapeq, List.sum_map_mul_right, ← div_eq_mul_inv]
  have hSmap : (templates.map (fun t => (alphaLen : ℝ) ^ uniqueSlots t)).sum
      = (us.map (fun u : Nat => (alphaLen : ℝ) ^ u)).sum := by
    rw [hus, List.map_map]
    rfl
  rw [hscaled, hSmap, Real.logb_div (ne_of_gt hS) (by positivity), Real.logb_pow]
  ring

/-- Claim C2: on a non-empty pool of well formed templates and an alphabet
length of at least two, calcPoolEntropyBits returns the floor of the base two
logarithm of the sum over templates of the alphabet length raised to the
unique slot count. -/
theorem claim_C2 (templates : List Template) (alphaLen : Nat)
    (h2 : 2 ≤ alphaLen) (hne : templates ≠ [])
    (hwf : ∀ t ∈ templates, t.idx ≠ []) :
    calcPoolEntropyBits templates alphaLen
      = .ok ⌊Real.logb 2 ((templates.map (fun t => (alphaLen : ℝ) ^ uniqueSlots t)).sum)⌋ := by
  rw [calcPoolEntropyBits_ok h2 (by simpa using hne), poolBitsReal_eq templates alphaLen h2 hne]

/-- Witness for claim C2: one two-slot template over a four symbol alphabet
gives floor of log2 of sixteen, which is four. -/
theorem claim_C2_witness :
    calcPoolEntropyBits [⟨"AB", [0, 1]⟩] 4 = .ok 4 := by
  rw [claim_C2 [⟨"AB", [0, 1]⟩] 4 (by norm_num) (by simp) (by decide)]
  have hsum : (([⟨"AB", [0, 1]⟩] : List Template).map
      (fun t => ((4 : Nat) : ℝ) ^ uniqueSlots t)).sum = ((16 : ℕ) : ℝ) := by
    have hu : uniqueSlots (⟨"AB", [0, 1]⟩ : Template) = 2 := by decide
    simp [hu]
    norm_num
  rw [hsum, floor_logb_two_nat]
  have hlog : Nat.log 2 16 = 4 := Nat.log_eq_of_pow_le_of_lt_pow (by norm_num) (by norm_num)
  rw [hlog]
  simp

/-- Claim C4 as stated is refuted in its description of the default pool: the
third default template, the alternating ABABAB, has two unique slots, so the
unique slot counts are 3,2,2,4,3 and not 3,2,3,4,3. -/
theorem claim_C4_counterexample :
    DEFAULT_TEMPLATES.map uniqueSlots = [3, 2, 2, 4, 3] ∧
    ([3, 2, 2, 4, 3] : List Nat) ≠ [3, 2, 3, 4, 3] := by
  decide

/-- Claim C4, amended: the default alphabet has 33 symbols, the default pool
has unique slot counts 3,2,2,4,3, and on them calcPoolEntropyBits returns
exactly 20, which is strictly less than 21. -/
theorem claim_C4 :
    DEFAULT_ALPHABET.length = 33 ∧
    DEFAULT_TEMPLATES.map uniqueSlots = [3, 2, 2, 4, 3] ∧
    calcPoolEntropyBits DEFAULT_TEMPLATES 33 = .ok 20 ∧ (20 : Int) < 21 := by
  refine ⟨by decide, by decide, ?_, by norm_num⟩
  rw [calcPoolEntropyBits_ok (by norm_num) (by decide),
    poolBitsReal_eq _ _ (by norm_num) (by decide)]
  have hmapmap : DEFAULT_TEMPLATES.map (fun t => ((33 : Nat) : ℝ) ^ uniqueSlots t)
      = (DEFAULT_TEMPLATES.map uniqueSlots).map (fun u => ((33 : Nat) : ℝ) ^ u) := by
    rw [List.map_map]
    rfl
  have hmap : DEFAULT_TEMPLATES.map uniqueSlots = [3, 2, 2, 4, 3] := by decide
  have hsum : (DEFAULT_TEMPLATES.map (fun t => ((33 : Nat) : ℝ) ^ uniqueSlots t)).sum
      = ((1259973 : ℕ) : ℝ) := by
    rw [hmapmap, hmap]
    norm_num
  rw [hsum, floor_logb_two_nat]
  have hlog : Nat.log 2 1259973 = 20 :=
    Nat.log_eq_of_pow_le_of_lt_pow (by norm_num) (by norm_num)
  rw [hlog]
  norm_num

/-- Claim C5 as stated is refuted: with an alphabet of two symbols and the
single one-slot template there are two producible codes, and the function
returns floor of log2 of 2, which is 1, not 0. -/
theorem claim_C5_counterexample :
    calcPoolEntropyBits [⟨"A", [0]⟩] 2 = .ok 1 ∧
    (Except.ok (1 : Int) : Except Err Int) ≠ .ok (0 : Int) := by
  constructor
  · rw [calcPoolEntropyBits_ok (by norm_num) (by decide),
      poolBitsReal_eq _ _ (by norm_num) (by decide)]
    have hsum : (([⟨"A", [0]⟩] : List Template).map
        (fun t => ((2 : Nat) : ℝ) ^ uniqueSlots t)).sum = ((2 : ℕ) : ℝ) := by
      have hu : uniqueSlots (⟨"A", [0]⟩ : Template) = 1 := by decide
      simp [hu]
    rw [hsum, floor_logb_two_nat]
    have hlog : Nat.log 2 2 = 1 := Nat.log_eq_of_pow_le_of_lt_pow (by norm_num) (by norm_num)
    rw [hlog]
    simp
  · simp

/-- Claim C5, amended: calcPoolEntropyBits on an alphabet length of exactly 2
and a single-template pool whose well formed template has exactly 1 unique
slot returns 1. -/
theorem claim_C5 (t : Template) (hwf : t.idx ≠ []) (h1 : uniqueSlots t = 1) :
    calcPoolEntropyBits [t] 2 = .ok 1 := by
  rw [calcPoolEntropyBits_ok (by norm_num) (by simp),
    poolBitsReal_eq _ _ (by norm_num) (by simp)]
  have hsum : (([t] : List Template).map
      (fun u => ((2 : Nat) : ℝ) ^ uniqueSlots u)).sum = ((2 : ℕ) : ℝ) := by
    simp [h1]
  rw [hsum, floor_logb_two_nat]
  have hlog : Nat.log 2 2 = 1 := Nat.log_eq_of_pow_le_of_lt_pow (by norm_num) (by norm_num)
  rw [hlog]
  simp

/-- Witness for the amended claim C5 at the two-position one-slot template. -/
theorem claim_C5_witness :
    calcPoolEntropyBits [⟨"AA", [0, 0]⟩] 2 = .ok 1 :=
  claim_C5 ⟨"AA", [0, 0]⟩ (by decide) (by decide)

/-! ### Error behaviour of validateCode, skipped integrity check, bigints -/

/-- Claim C3 as stated is refuted: an explicitly supplied empty template pool
makes generate throw, but validateCode simply returns false for the same
options instead of raising the same error. -/
theorem claim_C3_counterexample :
    validateCode (fun _ _ _ => []) ['X'] { templates := some [] } = .ok false ∧
    generate (fun _ _ _ => []) { templates := some [] } (fun _ _ => 0) 0
      = .error "At least one template required" := by
  constructor
  · rfl
  · rfl

/-- Claim C3, amended: validateCode never throws, for any candidate code and
any options, malformed ones included; a missing pool or alphabet falls back
to the defaults, and explicitly supplied bad options only influence the
boolean outcome. -/
theorem claim_C3 (hmacFn : HmacFn) (code : List Char) (opts : Options) :
    (validateCode hmacFn code opts).isOk = true := by
  rw [validateCode]
  repeat' split
  all_goals rfl

/-- Claim C9: when the stored digest is absent or empty, or the secret is
absent or the empty string, validateCode ignores the stored digest entirely
and returns the purely syntactic verdict, so any syntactically matching
candidate is accepted. -/
theorem claim_C9 (hmacFn : HmacFn) (code : List Char) (opts : Options)
    (h : hmacTruthy opts.hmac = false ∨ secretTruthy opts.secret = false) :
    validateCode hmacFn code opts = .ok
      ((code.map Char.toUpper).all
          (fun ch => (opts.alphabet.getD DEFAULT_ALPHABET).contains ch) &&
        (opts.templates.getD DEFAULT_TEMPLATES).any
          (fun t => matchesTemplate (code.map Char.toUpper) t)) := by
  apply validateCode_skip
  rcases h with h | h <;> simp [h]

/-- Witness for claim C9: a stored digest with no secret is ignored and a
syntactically valid candidate passes. -/
theorem claim_C9_witness :
    validateCode (fun _ _ _ => []) ['0', '0', '0', '0', '0', '0']
      { secret := none, hmac := some "ff" } = .ok true := by
  rw [claim_C9 (fun _ _ _ => []) ['0', '0', '0', '0', '0', '0']
    { secret := none, hmac := some "ff" } (Or.inr rfl)]
  rfl

/-- Claim C10: canonicalization turns a bigint into its decimal string, so a
bigint and the equal decimal string give byte-identical payloads and the same
digest for the same code, secret, algorithm and encoding. -/
theorem claim_C10 (hmacFn : HmacFn) (code : List Char) (codeStr : String)
    (opts : Options) (i : Int) :
    hmacPayload codeStr (.bigint i) = hmacPayload codeStr (.str (toString i)) ∧
    computeCodeHmac hmacFn code { opts with meta := .bigint i }
      = computeCodeHmac hmacFn code { opts with meta := .str (toString i) } := by
  have hpay : ∀ s : String, hmacPayload s (.bigint i) = hmacPayload s (.str (toString i)) := by
    intro s
    rw [hmacPayload, hmacPayload, asFlatMetaObject, asFlatMetaObject]
    simp [JsValue.isUndef, canonicalize]
  refine ⟨hpay codeStr, ?_⟩
  rw [computeCodeHmac, computeCodeHmac, computeCodeHmacRaw, computeCodeHmacRaw]
  simp [hpay]

/-! ### Round trip of the digest text encodings -/

lemma hexVal_hexDigitChar : ∀ x : Nat, x < 16 → hexVal (hexDigitChar x) = some x := by
  decide

lemma encodeHex_cons (b : Nat) (rest : List Nat) :
    encodeHex (b :: rest)
      = hexDigitChar (b / 16) :: hexDigitChar (b % 16) :: encodeHex rest := rfl

lemma encodeHex_length (bs : List Nat) : (encodeHex bs).length = 2 * bs.length := by
  induction bs with
  | nil => rfl
  | cons b rest ih =>
    rw [encodeHex_cons, List.length_cons, List.length_cons, ih, List.length_cons]
    omega

lemma decodeHexPairs_encodeHex (bs : List Nat) (h : ∀ b ∈ bs, b < 256) :
    decodeHexPairs (encodeHex bs) = bs := by
  induction bs with
  | nil => rfl
  | cons b rest ih =>
    have hb : b < 256 := h b (List.mem_cons_self _ _)
    rw [encodeHex_cons]
    rw [decodeHexPairs, hexVal_hexDigitChar _ (show b / 16 < 16 by omega),
      hexVal_hexDigitChar _ (show b % 16 < 16 by omega)]
    rw [ih (fun x hx => h x (List.mem_cons_of_mem _ hx))]
    have hbb : b / 16 * 16 + b % 16 = b := by omega
    simp [hbb]

lemma decode_encode_hex (raw : List Nat) (h : ∀ b ∈ raw, b < 256) :
    decodeHmacToBuffer (encodeBuffer raw .hex) .hex = some raw := by
  rw [encodeBuffer, decodeHmacToBuffer]
  have hlen : (String.mk (encodeHex raw)).length % 2 = 0 := by
    have hl : (String.mk (encodeHex raw)).length = (encodeHex raw).length := rfl
    rw [hl, encodeHex_length]
    omega
  rw [if_neg (by omega)]
  have ht : (String.mk (encodeHex raw)).toList = encodeHex raw := rfl
  rw [ht, decodeHexPairs_encodeHex raw h]

lemma b64Char_mem (x : Nat) : b64Char x ∈ B64_CHARS := by
  by_cases hx : x < B64_CHARS.length
  · rw [b64Char, List.getD_eq_getElem _ _ hx]
    exact List.getElem_mem _
  · rw [b64Char, List.getD_eq_default _ _ (by omega)]
    decide

lemma b64Char_beq_eq (x : Nat) : (b64Char x == '=') = false := by
  have h : ∀ c ∈ B64_CHARS, (c == '=') = false := by decide
  exact h _ (b64Char_mem x)

lemma b64Val_b64Char : ∀ x : Nat, x < 64 → b64Val (b64Char x) = some x := by
  decide

lemma decodeB64_b64Char_cons (x : Nat) (hx : x < 64) (l : List Char) :
    (List.takeWhile (fun c => !(c == '=')) (b64Char x :: l)).filterMap b64Val
      = x :: (List.takeWhile (fun c => !(c == '=')) l).filterMap b64Val := by
  simp [List.takeWhile_cons, b64Char_beq_eq, List.filterMap_cons, b64Val_b64Char x hx]

lemma takeWhile_eq_head (l : List Char) :
    List.takeWhile (fun c => !(c == '=')) ('=' :: l) = [] := by
  simp [List.takeWhile_cons]

lemma decodeB64_encodeB64 (bs : List Nat) (h : ∀ b ∈ bs, b < 256) :
    decodeB64 (encodeB64 bs) = bs := by
  induction bs using encodeB64.induct with
  | case1 => rfl
  | case2 a =>
    have ha : a < 256 := h _ (by simp)
    rw [show encodeB64 [a] = [b64Char (a / 4), b64Char (a % 4 * 16), '=', '='] from rfl,
      decodeB64, decodeB64_b64Char_cons _ (by omega), decodeB64_b64Char_cons _ (by omega),
      takeWhile_eq_head]
    simp [decodeB64Core]
    omega
  | case3 a b =>
    have ha : a < 256 := h _ (by simp)
    have hb : b < 256 := h _ (by simp)
    rw [show encodeB64 [a, b]
        = [b64Char (a / 4), b64Char (a % 4 * 16 + b / 16), b64Char (b % 16 * 4), '='] from rfl,
      decodeB64, decodeB64_b64Char_cons _ (by omega), decodeB64_b64Char_cons _ (by omega),
      decodeB64_b64Char_cons _ (by omega), takeWhile_eq_head]
    simp [decodeB64Core]
    omega
  | case4 a b c rest ih =>
    have ha : a < 256 := h _ (by simp)
    have hb : b < 256 := h _ (by simp)
    have hc : c < 256 := h _ (by simp)
    have hrest := ih (fun x hx => h x (by simp [hx]))
    rw [show encodeB64 (a :: b :: c :: rest)
        = b64Char (a / 4) :: b64Char (a % 4 * 16 + b / 16) :: b64Char (b % 16 * 4 + c / 64)
          :: b64Char (c % 64) :: encodeB64 rest from rfl,
      decodeB64, decodeB64_b64Char_cons _ (by omega), decodeB64_b64Char_cons _ (by omega),
      decodeB64_b64Char_cons _ (by omega), decodeB64_b64Char_cons _ (by omega)]
    rw [decodeB64Core]
    rw [decodeB64] at hrest
    rw [hrest]
    have h1 : a / 4 * 4 + (a % 4 * 16 + b / 16) / 16 = a := by omega
    have h2 : (a % 4 * 16 + b / 16) % 16 * 16 + (b % 16 * 4 + c / 64) / 4 = b := by omega
    have h3 : (b % 16 * 4 + c / 64) % 4 * 64 + c % 64 = c := by omega
    rw [h1, h2, h3]

lemma decode_encode_b64 (raw : List Nat) (h : ∀ b ∈ raw, b < 256) :
    decodeHmacToBuffer (encodeBuffer raw .base64) .base64 = some raw := by
  rw [encodeBuffer, decodeHmacToBuffer]
  have ht : (String.mk (encodeB64 raw)).toList = encodeB64 raw := rfl
  rw [ht, decodeB64_encodeB64 raw h]

lemma b64_mem_beq_eq : ∀ c ∈ B64_CHARS, (c == '=') = false := by
  decide

lemma urlBack_urlMap_id : ∀ c ∈ B64_CHARS, urlBackChar (urlMapChar c) = c := by
  decide

lemma urlMap_beq_eq : ∀ c ∈ B64_CHARS, (urlMapChar c == '=') = false := by
  decide

/-- Base64 output splits into an alphabet body followed by trailing padding. -/
lemma encodeB64_split (bs : List Nat) :
    ∃ body k, encodeB64 bs = body ++ List.replicate k '=' ∧ ∀ c ∈ body, c ∈ B64_CHARS := by
  induction bs using encodeB64.induct with
  | case1 => exact ⟨[], 0, rfl, by simp⟩
  | case2 a =>
    refine ⟨[b64Char (a / 4), b64Char (a % 4 * 16)], 2, rfl, ?_⟩
    intro c hc
    rcases List.mem_cons.mp hc with rfl | hc
    · exact b64Char_mem _
    rcases List.mem_cons.mp hc with rfl | hc
    · exact b64Char_mem _
    cases hc
  | case3 a b =>
    refine ⟨[b64Char (a / 4), b64Char (a % 4 * 16 + b / 16), b64Char (b % 16 * 4)], 1, rfl, ?_⟩
    intro c hc
    rcases List.mem_cons.mp hc with rfl | hc
    · exact b64Char_mem _
    rcases List.mem_cons.mp hc with rfl | hc
    · exact b64Char_mem _
    rcases List.mem_cons.mp hc with rfl | hc
    · exact b64Char_mem _
    cases hc
  | case4 a b c rest ih =>
    obtain ⟨body, k, he, hmem⟩ := ih
    refine ⟨b64Char (a / 4) :: b64Char (a % 4 * 16 + b / 16)
      :: b64Char (b % 16 * 4 + c / 64) :: b64Char (c % 64) :: body, k, ?_, ?_⟩
    · rw [show encodeB64 (a :: b :: c :: rest)
          = b64Char (a / 4) :: b64Char (a % 4 * 16 + b / 16) :: b64Char (b % 16 * 4 + c / 64)
            :: b64Char (c % 64) :: encodeB64 rest from rfl, he]
      simp
    · intro x hx
      rcases List.mem_cons.mp hx with rfl | hx
      · exact b64Char_mem _
      rcases List.mem_cons.mp hx with rfl | hx
      · exact b64Char_mem _
      rcases List.mem_cons.mp hx with rfl | hx
      · exact b64Char_mem _
      rcases List.mem_cons.mp hx with rfl | hx
      · exact b64Char_mem _
      exact hmem x hx

lemma dropWhile_replicate_append (k : Nat) (l : List Char) :
    List.dropWhile (fun c => c == '=') (List.replicate k '=' ++ l)
      = List.dropWhile (fun c => c == '=') l := by
  induction k with
  | zero => simp
  | succ n ih => simpa [List.replicate_succ, List.dropWhile_cons] using ih

lemma dropWhile_eq_self_of_all_false {l : List Char}
    (h : ∀ c ∈ l, (c == '=') = false) :
    List.dropWhile (fun c => c == '=') l = l := by
  cases l with
  | nil => rfl
  | cons a l => simp [List.dropWhile_cons, h a (List.mem_cons_self _ _)]

lemma dropTrailingEq_append_replicate {body : List Char} {k : Nat}
    (h : ∀ c ∈ body, (c == '=') = false) :
    dropTrailingEq (body ++ List.replicate k '=') = body := by
  rw [dropTrailingEq, List.reverse_append, List.reverse_replicate,
    dropWhile_replicate_append,
    dropWhile_eq_self_of_all_false (fun c hc => h c (List.mem_reverse.mp hc)),
    List.reverse_reverse]

lemma takeWhile_append_replicate {body : List Char} (k : Nat)
    (h : ∀ c ∈ body, (c == '=') = false) :
    List.takeWhile (fun c => !(c == '=')) (body ++ List.replicate k '=') = body := by
  induction body with
  | nil =>
    cases k with
    | zero => rfl
    | succ n => simp [List.replicate_succ, List.takeWhile_cons]
  | cons a l ih =>
    rw [List.cons_append, List.takeWhile_cons]
    simp only [h a (List.mem_cons_self _ _), Bool.not_false, if_true]
    rw [ih (fun c hc => h c (List.mem_cons_of_mem _ hc))]

lemma decode_encode_b64url (raw : List Nat) (h : ∀ b ∈ raw, b < 256) :
    decodeHmacToBuffer (encodeBuffer raw .base64url) .base64url = some raw := by
  obtain ⟨body, k, henc, hmem⟩ := encodeB64_split raw
  have hbody_ne : ∀ c ∈ body, (c == '=') = false :=
    fun c hc => b64_mem_beq_eq c (hmem c hc)
  have hmap_ne : ∀ c ∈ body.map urlMapChar, (c == '=') = false := by
    intro c hc
    rcases List.mem_map.mp hc with ⟨d, hd, rfl⟩
    exact urlMap_beq_eq d (hmem d hd)
  have hurl : b64ToUrl (encodeB64 raw) = body.map urlMapChar := by
    rw [henc, b64ToUrl, List.map_append, List.map_replicate,
      show urlMapChar '=' = '=' from rfl, dropTrailingEq_append_replicate hmap_ne]
  have hbase : decodeB64Core (body.filterMap b64Val) = raw := by
    have hrt := decodeB64_encodeB64 raw h
    rw [decodeB64, henc, takeWhile_append_replicate k hbody_ne] at hrt
    exact hrt
  have hmaps : ((String.mk (b64ToUrl (encodeB64 raw))).toList.map urlBackChar) = body := by
    have h0 : (String.mk (b64ToUrl (encodeB64 raw))).toList = body.map urlMapChar := hurl
    rw [h0, List.map_map]
    calc body.map (urlBackChar ∘ urlMapChar)
        = body.map id := List.map_congr_left (fun c hc => urlBack_urlMap_id c (hmem c hc))
      _ = body := List.map_id body
  rw [encodeBuffer, decodeHmacToBuffer, hmaps, decodeB64,
    takeWhile_append_replicate _ hbody_ne, hbase]

/-- Every encoding of the source decodes its own output back to the raw
digest bytes. -/
lemma decode_encode (raw : List Nat) (h : ∀ b ∈ raw, b < 256) (enc : HmacEncoding) :
    decodeHmacToBuffer (encodeBuffer raw enc) enc = some raw :=
  match enc with
  | .hex => decode_encode_hex raw h
  | .base64 => decode_encode_b64 raw h
  | .base64url => decode_encode_b64url raw h

/-- Closed form of validateCode: the syntactic verdict gates the result, and
the integrity comparison only runs when both the stored digest and the secret
are truthy. -/
lemma validateCode_eq (hmacFn : HmacFn) (code : List Char) (opts : Options) :
    validateCode hmacFn code opts = .ok (
      if (code.map Char.toUpper).all
            (fun ch => (opts.alphabet.getD DEFAULT_ALPHABET).contains ch)
          && (opts.templates.getD DEFAULT_TEMPLATES).any
            (fun t => matchesTemplate (code.map Char.toUpper) t)
      then
        (if hmacTruthy opts.hmac && secretTruthy opts.secret
         then hmacCheck hmacFn (code.map Char.toUpper) opts
         else true)
      else false) := by
  rw [validateCode]
  cases h1 : (code.map Char.toUpper).all
      (fun ch => (opts.alphabet.getD DEFAULT_ALPHABET).contains ch) <;>
    cases h2 : (opts.templates.getD DEFAULT_TEMPLATES).any
      (fun t => matchesTemplate (code.map Char.toUpper) t) <;>
    cases h3 : hmacTruthy opts.hmac && secretTruthy opts.secret <;>
    simp [h1, h2, h3]

/-- Recomputing the digest over the same uppercased code and options and
storing its encoding always passes the integrity comparison, because every
encoding decodes its own output back to the same raw byte list. -/
lemma hmacCheck_roundtrip (hmacFn : HmacFn) (up : List Char) (opts : Options)
    (hbytes : ∀ a s m, ∀ b ∈ hmacFn a s m, b < 256) :
    hmacCheck hmacFn up
      { opts with hmac := some (encodeBuffer
          (computeCodeHmacRaw hmacFn (String.mk up) opts) (opts.hmacEncoding.getD .hex)) }
      = true := by
  show (match decodeHmacToBuffer
      (encodeBuffer (computeCodeHmacRaw hmacFn (String.mk up) opts)
        (opts.hmacEncoding.getD .hex))
      (opts.hmacEncoding.getD .hex) with
    | none => false
    | some providedRaw =>
      if providedRaw.length ≠ (computeCodeHmacRaw hmacFn (String.mk up) opts).length
      then false
      else providedRaw == computeCodeHmacRaw hmacFn (String.mk up) opts) = true
  rw [decode_encode (computeCodeHmacRaw hmacFn (String.mk up) opts)
    (hbytes _ _ _) (opts.hmacEncoding.getD .hex)]
  simp

/-- Claim C8: digest round trip.  For every syntactically valid candidate and
every secret, metadata, algorithm and encoding carried by the options, storing
the digest computed by computeCodeHmac in the options makes validateCode
return true; the digest primitive only needs to emit bytes. -/
theorem claim_C8 (hmacFn : HmacFn) (code : List Char) (opts : Options)
    (hbytes : ∀ a s m, ∀ b ∈ hmacFn a s m, b < 256)
    (hmem : (code.map Char.toUpper).all
      (fun ch => (opts.alphabet.getD DEFAULT_ALPHABET).contains ch) = true)
    (hmatch : (opts.templates.getD DEFAULT_TEMPLATES).any
      (fun t => matchesTemplate (code.map Char.toUpper) t) = true) :
    validateCode hmacFn code { opts with hmac := some (computeCodeHmac hmacFn code opts) }
      = .ok true := by
  rw [validateCode_eq]
  refine congrArg Except.ok ?_
  show (if (code.map Char.toUpper).all
        (fun ch => (opts.alphabet.getD DEFAULT_ALPHABET).contains ch)
      && (opts.templates.getD DEFAULT_TEMPLATES).any
        (fun t => matchesTemplate (code.map Char.toUpper) t)
    then
      (if hmacTruthy (some (computeCodeHmac hmacFn code opts)) && secretTruthy opts.secret
       then hmacCheck hmacFn (code.map Char.toUpper)
          { opts with hmac := some (computeCodeHmac hmacFn code opts) }
       else true)
    else false) = true
  rw [hmem, hmatch]
  cases h3 : hmacTruthy (some (computeCodeHmac hmacFn code opts)) && secretTruthy opts.secret
  · simp
  · simp only [Bool.and_self, if_true]
    exact hmacCheck_roundtrip hmacFn (code.map Char.toUpper) opts hbytes

/-- Witness for claim C8: a one byte digest primitive, the all zero candidate
over the default pool and a string secret, with the hex encoding default. -/
theorem claim_C8_witness :
    validateCode (fun _ _ _ => [171]) ['0', '0', '0', '0', '0', '0']
      { ({ secret := some (.str "k") } : Options) with
        hmac := some (computeCodeHmac (fun _ _ _ => [171]) ['0', '0', '0', '0', '0', '0']
          { secret := some (.str "k") }) }
      = .ok true :=
  claim_C8 (fun _ _ _ => [171]) ['0', '0', '0', '0', '0', '0'] { secret := some (.str "k") }
    (by intro a s m b hb; simp at hb; omega) (by decide) (by decide)

end MnemonicOtp
